import Mathlib

/-!
Verification development for the otk omnifest compiler.

Shallow embedding of:
  * `src/otk/document.py`  — the `Omnifest` validated document container;
  * `src/otk/command.py`   — `_process`, `compile`, `validate`.

The modules `constant`, `context`, `target`, `transform`, `traversal` of the
repository are not available; the pieces of them that the embedding needs are
either modelled from the spec (the two constants, the shape of `CommonContext`
and `State`) or kept abstract as oracle functions supplied through the
`Collab` record (`process_include`, `resolve`, the registries' contents and
the renderers), exactly at the boundary where `_process` calls them.
-/

namespace Otk

/-- The recursive document value: scalar, ordered sequence, or mapping with
string keys in insertion order (a Python dict / YAML tree). -/
inductive Tree where
  | scalar (s : String)
  | seq (elems : List Tree)
  | map (entries : List (String × Tree))

/-- Python `str.split(sep)` for a one-character separator, over the character
list: every occurrence of the separator closes the current field, so
splitting `a.b` at `.` gives `[a, b]`, splitting `qemu` gives `[qemu]` and
splitting `a.b.c` gives three fields. Defined structurally so that it
computes by reduction. -/
def splitOnChar (c : Char) : List Char → List (List Char)
  | [] => [[]]
  | x :: xs =>
    match splitOnChar c xs with
    | [] => [[]]
    | w :: ws => if x = c then [] :: w :: ws else (x :: w) :: ws

/-- Python `target_requested.split(".")` as used in `command.py` line 96. -/
def pySplitDot (s : String) : List String :=
  (splitOnChar '.' s.toList).map String.mk

/-- Whether the first list is an initial segment of the second. -/
def startsWithChars : List Char → List Char → Bool
  | [], _ => true
  | _ :: _, [] => false
  | p :: ps, x :: xs => p == x && startsWithChars ps xs

/-- Python `s.startswith(p)`, over the character lists. -/
def pyStartsWith (s p : String) : Bool :=
  startsWithChars p.toList s.toList

/-- Python `s[n:]` (as performed by `str.removeprefix` once the front marker
is known to be present), over the character list. -/
def pyDrop (s : String) (n : Nat) : String :=
  ⟨s.toList.drop n⟩

/-- Modelled from the spec: `constant.py` is not in the sources; the spec says
target sections are the top-level keys with the `target.` marker in front
(`target.<kind>.<name>`). -/
def PREFIX_TARGET : String := "target."

/-- Modelled from the spec: `constant.py` is not in the sources; the spec only
says there is a recognized format-version marker key. -/
def NAME_VERSION : String := "version"

/-- The dict comprehension of `document.py` lines 30-32 and `command.py`
lines 72-74 (they are identical): keep the entries whose key starts with
`PREFIX_TARGET` and strip that front marker from the key, preserving
insertion order. -/
def targetAvailableOf (d : List (String × Tree)) : List (String × Tree) :=
  (d.filter (fun kv => pyStartsWith kv.1 PREFIX_TARGET)).map
    (fun kv => (pyDrop kv.1 PREFIX_TARGET.length, kv.2))

/-- The Python exceptions that can escape the embedded code: the two
validation errors raised by `Omnifest.ensure`, a `KeyError` from the subtree
lookup, and `raised s` for any exception coming out of one of the oracle
collaborators (`process_include`, `resolve`). -/
inductive PyExc where
  | parseVersionError
  | noTargetsError
  | keyError
  | raised (s : String)
deriving DecidableEq

/-- `document.py` `Omnifest`: owns the validated deserialized data. -/
structure Omnifest where
  underlying_data : List (String × Tree)

/-- `Omnifest.ensure` (`document.py` lines 20-34): raise `ParseVersionError`
when the version marker key is absent, then `NoTargetsError` when no key
carries the target marker. -/
def Omnifest.ensure (deserialized_data : List (String × Tree)) :
    Except PyExc Unit :=
  if NAME_VERSION ∉ deserialized_data.map Prod.fst then
    .error .parseVersionError
  else if (targetAvailableOf deserialized_data).isEmpty then
    .error .noTargetsError
  else
    .ok ()

/-- `Omnifest.__init__` (`document.py` lines 16-18): run `ensure`, then store
the data. Exceptions propagate as the `.error` case. -/
def Omnifest.make (underlying_data : List (String × Tree)) :
    Except PyExc Omnifest :=
  match Omnifest.ensure underlying_data with
  | .error e => .error e
  | .ok _ => .ok ⟨underlying_data⟩

/-- The `tree` property (`document.py` lines 36-38): `deepcopy` is the
identity at the level of values, so at this level reading the tree returns
the underlying data; the heap-level model of the defensive copy is
`Omnifest.treeH` below. -/
def Omnifest.tree (o : Omnifest) : List (String × Tree) :=
  o.underlying_data

/-- The `log.fatal` messages of `_process` that precede a `return 1`,
abstracted into one tag per call site. -/
inductive Fatal where
  | noTargets
  | ambiguous
  | unknownTarget (t : String)
  | malformedTarget (t : String)
deriving DecidableEq

/-- Observable outcome of a `_process` run that returned normally: the
returned status, what was written to the output destination (`none` when no
write happened), and instrumentation recording which target identifier was
settled on, which subtree was handed to `resolve`, and which fatal message,
if any, was logged. -/
structure ProcResult where
  status : Nat
  written : Option String
  selected : Option String
  resolvedTree : Option Tree
  fatal : Option Fatal

/-- Python truthiness test `not target_requested` for an optional string:
`None` and the empty string are falsy. -/
def optFalsy : Option String → Bool
  | none => true
  | some s => s.isEmpty

/-- Modelled from the spec: `context.py` is not in the sources; the spec says
a Context holds resolution-time configuration: the working directory used for
includes and the variable definitions. -/
structure CommonContext where
  cwd : String
  defines : List (String × Tree)

/-- Modelled from the spec: `CommonContext(cwd)` starts with no defines
(the spec leaves seeding `defines` outside the core). -/
def CommonContext.new (cwd : String) : CommonContext :=
  ⟨cwd, []⟩

/-- Modelled from the spec: `traversal.py` is not in the sources; the spec
says a `State` carries the current document path and the active defines. -/
structure PState where
  path : String
  defines : List (String × Tree)

/-- The external collaborators `_process` calls, kept abstract: the working
directory and stdin pseudo-path of the process, `process_include` and
`resolve` from the missing `transform` module, the two registries' contents,
and the generic constructors `CommonContext` (as used when looked up from the
registry, a function from the base context) and `CommonTarget().as_string`. -/
structure Collab (Ctx : Type) where
  cwdProc : String
  stdinPath : String
  processInclude : CommonContext → PState → String → Except PyExc (List (String × Tree))
  commonSpec : CommonContext → Ctx
  contextRegistry : List (String × (CommonContext → Ctx))
  resolve : Ctx → PState → Tree → Except PyExc Tree
  commonTarget : Ctx → Tree → String
  targetRegistry : List (String × (Ctx → Tree → String))

/-- Python `dict.get(k, default)`. -/
def dictGet {α : Type} (reg : List (String × α)) (k : String) (d : α) : α :=
  match reg.lookup k with
  | some v => v
  | none => d

/-- `pathlib.PurePath.parent` for POSIX paths without a trailing slash:
drop the last path component; the parent of a bare name is `.` and the
parent of a root-level name is `/`. -/
def pathParent (p : String) : String :=
  match (p.splitOn "/").dropLast with
  | [] => "."
  | [""] => "/"
  | parts => String.intercalate "/" parts

/-- `command.py` line 58: the working directory is the process's current
directory when reading stdin, else the directory the omnifest is in. -/
def cwdFor (input : Option String) (cwdProc : String) : String :=
  match input with
  | none => cwdProc
  | some inp => pathParent inp

/-- `command.py` lines 60-63: the document path is the stdin pseudo-path
when reading stdin, else the named input path. -/
def pathOf (input : Option String) (stdinPath : String) : String :=
  match input with
  | none => stdinPath
  | some inp => inp

/-- Outcome of the target-selection block of `_process`
(lines 72-103): either a fatal message (the function returns 1), or the
identifier that survived, split into kind and name. -/
inductive Selection where
  | fatal (f : Fatal)
  | select (tr kind name : String)

/-- The target-selection block of `_process` (`command.py` lines 72-103):
no targets is fatal; multiple targets with a falsy request is fatal
(ambiguous); then line 88 unconditionally overwrites the requested target
with the first available key, the membership check of line 90 runs on that
overwritten value, and the value is split on `.` into kind and name, any
shape other than two components being fatal (malformed). -/
def selectTarget (target_available : List (String × Tree))
    (target_requested : Option String) : Selection :=
  match target_available with
  | [] => .fatal .noTargets
  | (k0, _) :: _ =>
    if target_available.length > 1 ∧ optFalsy target_requested = true then
      .fatal .ambiguous
    else
      if k0 ∉ (target_available.map Prod.fst) then
        .fatal (.unknownTarget k0)
      else
        match pySplitDot k0 with
        | [kind, name] => .select k0 kind name
        | _ => .fatal (.malformedTarget k0)

/-- `command.py` lines 52-67: build the context with the computed working
directory, the state with the document path and the context's defines, and
run `process_include` on the document path. -/
def includedTree {Ctx : Type} (c : Collab Ctx) (input : Option String) :
    Except PyExc (List (String × Tree)) :=
  let cwd := cwdFor input c.cwdProc
  let path := pathOf input c.stdinPath
  let ctx := CommonContext.new cwd
  c.processInclude ctx ⟨path, ctx.defines⟩ path

/-- Arguments of the `compile` / `validate` subcommands that `_process`
reads: the input path (`None` for stdin), the output path (`None` for
stdout, compile only), and the requested target. -/
structure Args where
  input : Option String
  output : Option String
  target : Option String

/-- `command.py` lines 105-115 given the selection outcome: on a fatal
selection return 1; otherwise look up the specialized context for the kind
(falling back to `CommonContext`), rebuild the state, fetch the target's
subtree by its full key, `resolve` it, and, unless this is a dry run, write
the string rendered by the target looked up for the kind (falling back to
`CommonTarget`). -/
def processTarget {Ctx : Type} (c : Collab Ctx) (args : Args)
    (dry_run : Bool) (doc : Omnifest) : Except PyExc ProcResult :=
  match selectTarget (targetAvailableOf doc.tree) args.target with
  | .fatal f => .ok ⟨1, none, none, none, some f⟩
  | .select tr kind name =>
    let ctx := CommonContext.new (cwdFor args.input c.cwdProc)
    let spec := (dictGet c.contextRegistry kind c.commonSpec) ctx
    let state : PState := ⟨pathOf args.input c.stdinPath, ctx.defines⟩
    match (doc.tree).lookup (PREFIX_TARGET ++ kind ++ "." ++ name) with
    | none => .error .keyError
    | some subtree =>
      match c.resolve spec state subtree with
      | .error e => .error e
      | .ok tree =>
        if dry_run then
          .ok ⟨0, none, some tr, some subtree, none⟩
        else
          .ok ⟨0, some ((dictGet c.targetRegistry kind c.commonTarget) spec tree),
               some tr, some subtree, none⟩

/-- `_process` (`command.py` lines 51-115): include-expand the input, build
the validated `Omnifest` (its exceptions propagate), then select, resolve
and, unless dry run, render the target. -/
def processModel {Ctx : Type} (c : Collab Ctx) (args : Args)
    (dry_run : Bool) : Except PyExc ProcResult :=
  match includedTree c args.input with
  | .error e => .error e
  | .ok data =>
    match Omnifest.make data with
    | .error e => .error e
    | .ok doc => processTarget c args dry_run doc

/-- `compile` (`command.py` lines 118-119). -/
def compileCmd {Ctx : Type} (c : Collab Ctx) (args : Args) :
    Except PyExc ProcResult :=
  processModel c args false

/-- `validate` (`command.py` lines 122-123). -/
def validateCmd {Ctx : Type} (c : Collab Ctx) (args : Args) :
    Except PyExc ProcResult :=
  processModel c args true

/-!
Heap-level model of `copy.deepcopy` for the defensive copy performed by the
`tree` property (`document.py` line 38).  Python values live on a heap of
cells addressed by identity; a cell is a scalar, a list of addresses, or a
dict from strings to addresses.  `deepcopy` allocates a fresh cell for every
cell it visits, so the copy shares no cell with the original and mutating
the copy cannot change the original.  Recursion is fuelled because an
arbitrary heap may be cyclic; all statements are conditional on the copy
having completed within its fuel.
-/

/-- A heap address: Python object identity. -/
abbrev Addr := Nat

/-- One heap cell of a Python value. -/
inductive PyNode where
  | scalar (s : String)
  | list (elems : List Addr)
  | dict (entries : List (String × Addr))
deriving DecidableEq

/-- The heap: cell at address `i` is the `i`-th entry; allocation appends. -/
abbrev Store := List PyNode

/-- The addresses a cell refers to. -/
def PyNode.addrs : PyNode → List Addr
  | .scalar _ => []
  | .list es => es
  | .dict es => es.map Prod.snd

/-- A well-formed heap: every reference goes to an allocated cell. -/
def WFStore (σ : Store) : Prop :=
  ∀ n ∈ σ, ∀ b ∈ n.addrs, b < σ.length

/-- Read a list of addresses into pure values with the given reader. -/
def readMany (rd : Addr → Option Tree) : List Addr → Option (List Tree)
  | [] => some []
  | a :: as =>
    match rd a with
    | none => none
    | some t =>
      match readMany rd as with
      | none => none
      | some ts => some (t :: ts)

/-- Read dict entries into pure key-value pairs with the given reader. -/
def readManyKV (rd : Addr → Option Tree) :
    List (String × Addr) → Option (List (String × Tree))
  | [] => some []
  | (k, a) :: as =>
    match rd a with
    | none => none
    | some t =>
      match readManyKV rd as with
      | none => none
      | some ts => some ((k, t) :: ts)

/-- Read the pure value rooted at an address, with fuel. -/
def readV : Nat → Store → Addr → Option Tree
  | 0, _, _ => none
  | fuel + 1, σ, a =>
    match σ[a]? with
    | none => none
    | some (.scalar s) => some (.scalar s)
    | some (.list es) =>
      match readMany (readV fuel σ) es with
      | none => none
      | some ts => some (.seq ts)
    | some (.dict es) =>
      match readManyKV (readV fuel σ) es with
      | none => none
      | some ts => some (.map ts)

/-- Copy each address in a list with the given copier, threading the heap
left to right and collecting the fresh addresses. -/
def copyMany (cp : Store → Addr → Option (Store × Addr)) :
    Store → List Addr → Option (Store × List Addr)
  | σ, [] => some (σ, [])
  | σ, a :: as =>
    match cp σ a with
    | none => none
    | some (σ1, a1) =>
      match copyMany cp σ1 as with
      | none => none
      | some (σ2, as2) => some (σ2, a1 :: as2)

/-- Copy each dict entry's value with the given copier, keeping the keys. -/
def copyManyKV (cp : Store → Addr → Option (Store × Addr)) :
    Store → List (String × Addr) → Option (Store × List (String × Addr))
  | σ, [] => some (σ, [])
  | σ, (k, a) :: as =>
    match cp σ a with
    | none => none
    | some (σ1, a1) =>
      match copyManyKV cp σ1 as with
      | none => none
      | some (σ2, as2) => some (σ2, (k, a1) :: as2)

/-- `copy.deepcopy`: copy the structure rooted at `a`, allocating a fresh
cell for every visited cell (children first, then the parent cell referring
to the fresh children). -/
def deepcopy : Nat → Store → Addr → Option (Store × Addr)
  | 0, _, _ => none
  | fuel + 1, σ, a =>
    match σ[a]? with
    | none => none
    | some (.scalar s) => some (σ ++ [.scalar s], σ.length)
    | some (.list es) =>
      match copyMany (deepcopy fuel) σ es with
      | none => none
      | some (σ2, es2) => some (σ2 ++ [.list es2], σ2.length)
    | some (.dict es) =>
      match copyManyKV (deepcopy fuel) σ es with
      | none => none
      | some (σ2, es2) => some (σ2 ++ [.dict es2], σ2.length)

/-- The addresses reachable from a root address in a heap. -/
inductive Reaches (σ : Store) (a : Addr) : Addr → Prop
  | refl : Reaches σ a a
  | step {b c : Addr} {n : PyNode} (hb : Reaches σ a b)
      (hn : σ[b]? = some n) (hc : c ∈ n.addrs) : Reaches σ a c

/-- The `tree` property at the heap level (`document.py` lines 36-38):
reading an `Omnifest`'s tree deep-copies the underlying data rooted at
address `a` in heap `σ`. -/
def Omnifest.treeH (fuel : Nat) (σ : Store) (a : Addr) :
    Option (Store × Addr) :=
  deepcopy fuel σ a

/-!
Concrete inputs used to evaluate the model.
-/

/-- A collaborator assignment whose include expansion returns the fixed
document `d`, whose resolution is the identity and whose rendering returns
the fixed string `rendered`, with both registries empty. -/
def constCollab (d : List (String × Tree)) : Collab Unit :=
  { cwdProc := "/work", stdinPath := "/proc/self/fd/0",
    processInclude := fun _ _ _ => .ok d,
    commonSpec := fun _ => (), contextRegistry := [],
    resolve := fun _ _ t => .ok t,
    commonTarget := fun _ _ => "rendered", targetRegistry := [] }

/-- A document with the version marker and one target `target.qemu.x86_64`. -/
def docSingle : List (String × Tree) :=
  [("version", .scalar "1"), ("target.qemu.x86_64", .map [])]

/-- A document with the version marker and one target `target.foo.bar`. -/
def docFooBar : List (String × Tree) :=
  [("version", .scalar "1"), ("target.foo.bar", .scalar "x")]

/-- A document whose only target key `target.qemu` has no name component. -/
def docMalformed : List (String × Tree) :=
  [("version", .scalar "1"), ("target.qemu", .scalar "x")]

/-- A document with two targets `qemu.x86_64` and `qemu.aarch64`. -/
def docTwo : List (String × Tree) :=
  [("version", .scalar "1"), ("target.qemu.x86_64", .scalar "x"),
   ("target.qemu.aarch64", .scalar "y")]

/-- A concrete heap: cell 0 a scalar, cell 1 a dict referring to cell 0. -/
def storeEx : Store :=
  [.scalar "1", .dict [("version", 0)]]

/-- The heap after deep-copying cell 1 of `storeEx` (fresh cells 2 and 3). -/
def storeEx1 : Store :=
  [.scalar "1", .dict [("version", 0)], .scalar "1", .dict [("version", 2)]]

/-- The heap after a second deep copy of cell 1 (fresh cells 4 and 5). -/
def storeEx2 : Store :=
  [.scalar "1", .dict [("version", 0)], .scalar "1", .dict [("version", 2)],
   .scalar "1", .dict [("version", 4)]]

/-!
Invariants used in the verification of `deepcopy`.
-/

/-- Every cell the copy added on top of `σ` refers only to added cells. -/
def HiFresh (σ σ2 : Store) : Prop :=
  ∀ j n, σ.length ≤ j → σ2[j]? = some n → ∀ b ∈ n.addrs, σ.length ≤ b

/-- What a successful `deepcopy fuel σ a = some (σ2, a2)` guarantees on a
well-formed heap: the heap only grew, the root of the copy is a fresh valid
cell, the grown heap is well formed, added cells refer only to added cells,
and the copy reads back to the same pure value as the original. -/
def CopySpec (fuel : Nat) (σ : Store) (a : Addr) (σ2 : Store) (a2 : Addr) :
    Prop :=
  (∃ t, σ2 = σ ++ t) ∧
  σ.length ≤ a2 ∧ a2 < σ2.length ∧
  WFStore σ2 ∧
  HiFresh σ σ2 ∧
  readV fuel σ2 a2 = readV fuel σ a

/-- The analogue of `CopySpec` for `copyMany`. -/
def CopyManySpec (fuel : Nat) (σ : Store) (es : List Addr) (σ2 : Store)
    (es2 : List Addr) : Prop :=
  (∃ t, σ2 = σ ++ t) ∧
  (∀ b ∈ es2, σ.length ≤ b ∧ b < σ2.length) ∧
  WFStore σ2 ∧
  HiFresh σ σ2 ∧
  readMany (readV fuel σ2) es2 = readMany (readV fuel σ) es

/-- The analogue of `CopySpec` for `copyManyKV`. -/
def CopyManyKVSpec (fuel : Nat) (σ : Store) (es : List (String × Addr))
    (σ2 : Store) (es2 : List (String × Addr)) : Prop :=
  (∃ t, σ2 = σ ++ t) ∧
  (∀ b ∈ es2.map Prod.snd, σ.length ≤ b ∧ b < σ2.length) ∧
  WFStore σ2 ∧
  HiFresh σ σ2 ∧
  readManyKV (readV fuel σ2) es2 = readManyKV (readV fuel σ) es

/-!
Helper lemmas about `Omnifest`, `selectTarget` and `processModel`.
-/

theorem Omnifest.make_eq_ok (d : List (String × Tree))
    (hv : NAME_VERSION ∈ d.map Prod.fst) (ht : targetAvailableOf d ≠ []) :
    Omnifest.make d = .ok ⟨d⟩ := by
  simp [Omnifest.make, Omnifest.ensure, hv, List.isEmpty_iff, ht]

theorem Omnifest.make_ok_inv (d : List (String × Tree)) (o : Omnifest)
    (h : Omnifest.make d = .ok o) :
    o.underlying_data = d ∧ NAME_VERSION ∈ d.map Prod.fst ∧
      targetAvailableOf d ≠ [] := by
  simp only [Omnifest.make, Omnifest.ensure] at h
  split_ifs at h with h1 h2
  cases h
  exact ⟨rfl, h1, by simpa [List.isEmpty_iff] using h2⟩

theorem selectTarget_cons (k0 : String) (v0 : Tree)
    (rest : List (String × Tree)) (req : Option String) :
    selectTarget ((k0, v0) :: rest) req =
      if ((k0, v0) :: rest).length > 1 ∧ optFalsy req = true then
        .fatal .ambiguous
      else
        match pySplitDot k0 with
        | [kind, name] => .select k0 kind name
        | _ => .fatal (.malformedTarget k0) := by
  simp only [selectTarget]
  by_cases h : ((k0, v0) :: rest).length > 1 ∧ optFalsy req = true
  · rw [if_pos h, if_pos h]
  · rw [if_neg h, if_neg h, if_neg (not_not_intro (by simp))]

theorem processModel_to_target {Ctx : Type} (c : Collab Ctx) (args : Args)
    (dr : Bool) (d : List (String × Tree))
    (hinc : includedTree c args.input = .ok d)
    (hv : NAME_VERSION ∈ d.map Prod.fst) (ht : targetAvailableOf d ≠ []) :
    processModel c args dr = processTarget c args dr ⟨d⟩ := by
  simp only [processModel, hinc, Omnifest.make_eq_ok d hv ht]

theorem processTarget_fatal {Ctx : Type} (c : Collab Ctx) (args : Args)
    (dr : Bool) (doc : Omnifest) (f : Fatal)
    (h : selectTarget (targetAvailableOf doc.tree) args.target = .fatal f) :
    processTarget c args dr doc = .ok ⟨1, none, none, none, some f⟩ := by
  simp only [processTarget, h]

theorem processTarget_select {Ctx : Type} (c : Collab Ctx) (args : Args)
    (dr : Bool) (doc : Omnifest) (tr kind name : String) (sub rt : Tree)
    (h : selectTarget (targetAvailableOf doc.tree) args.target =
      .select tr kind name)
    (hlook : doc.tree.lookup (PREFIX_TARGET ++ kind ++ "." ++ name) = some sub)
    (hres : c.resolve
        ((dictGet c.contextRegistry kind c.commonSpec)
          (CommonContext.new (cwdFor args.input c.cwdProc)))
        ⟨pathOf args.input c.stdinPath, []⟩ sub = .ok rt) :
    processTarget c args dr doc =
      .ok ⟨0,
        if dr then none
        else some ((dictGet c.targetRegistry kind c.commonTarget)
          ((dictGet c.contextRegistry kind c.commonSpec)
            (CommonContext.new (cwdFor args.input c.cwdProc))) rt),
        some tr, some sub, none⟩ := by
  simp only [processTarget, h, hlook, CommonContext.new] at hres ⊢
  simp only [hres]
  cases dr <;> rfl

/-- The anonymous branch of a two-component split: any split result whose
length is not two selects the malformed outcome. -/
theorem split_match_malformed (k0 : String)
    (h : (pySplitDot k0).length ≠ 2) :
    (match pySplitDot k0 with
      | [kind, name] => Selection.select k0 kind name
      | _ => Selection.fatal (.malformedTarget k0)) =
      Selection.fatal (.malformedTarget k0) := by
  rcases hl : pySplitDot k0 with _ | ⟨a, _ | ⟨b, _ | ⟨e, l⟩⟩⟩
  · rfl
  · rfl
  · exact absurd (by simp [hl]) h
  · rfl

/-!
Claim theorems.
-/

/-- Claim C3: constructing the validated `Omnifest` from a mapping fails with
the version error whenever the version marker key is absent, fails with the
no-targets error whenever the marker is present but no key carries the
`target.` marker in front, and succeeds when both validations pass. -/
theorem omnifest_construction_validates (d : List (String × Tree)) :
    (NAME_VERSION ∉ d.map Prod.fst →
      Omnifest.make d = .error .parseVersionError) ∧
    (NAME_VERSION ∈ d.map Prod.fst → targetAvailableOf d = [] →
      Omnifest.make d = .error .noTargetsError) ∧
    (NAME_VERSION ∈ d.map Prod.fst → targetAvailableOf d ≠ [] →
      Omnifest.make d = .ok ⟨d⟩) := by
  refine ⟨fun h => ?_, fun h1 h2 => ?_, fun h1 h2 => ?_⟩
  · simp [Omnifest.make, Omnifest.ensure, h]
  · simp [Omnifest.make, Omnifest.ensure, h1, List.isEmpty_iff, h2]
  · exact Omnifest.make_eq_ok d h1 h2

/-- Witness for C3 at a concrete document: the validations pass and
construction succeeds. -/
theorem omnifest_construction_validates_witness :
    Omnifest.make docSingle = .ok ⟨docSingle⟩ :=
  (omnifest_construction_validates docSingle).2.2 (by decide)
    (fun hh => absurd (congrArg List.length hh) (by decide))

/-- Claim C1 (code bug): with the single available target `qemu.x86_64` and
the explicitly requested target `ami.aws` absent from the document's
available identifiers, `_process` does not fail with the unknown-target
error: line 88 of `command.py` unconditionally overwrites the request, the
membership check passes on the overwritten value, and compilation proceeds
through resolution and rendering with status 0. -/
theorem unknown_target_not_rejected :
    processModel (constCollab docSingle)
        ⟨some "in.yaml", none, some "ami.aws"⟩ false =
      .ok ⟨0, some "rendered", some "qemu.x86_64", some (Tree.map []),
        none⟩ := rfl

/-- Claim C2 counterexample: the requested identifier `qemu` has no
`<kind>.<name>` shape, the document's only target is `foo.bar`, and
compilation nevertheless succeeds with status 0 after resolving and
rendering `foo.bar`: no malformed-target-name error is reported and
resolution work is performed. -/
theorem malformed_request_not_rejected :
    processModel (constCollab docFooBar)
        ⟨some "in.yaml", none, some "qemu"⟩ false =
      .ok ⟨0, some "rendered", some "foo.bar", some (Tree.scalar "x"),
        none⟩ := rfl

/-- Claim C2 as amended: the identifier `_process` actually splits is the
one selected by the unconditional default assignment of line 88, namely the
first available target identifier; whenever that identifier does not have
exactly one `.` separator, compilation fails with the malformed-target-name
error, after include expansion and document validation but before any
directive resolution (nothing is resolved and nothing is written). -/
theorem malformed_selected_target_rejected {Ctx : Type} (c : Collab Ctx)
    (args : Args) (dr : Bool) (d : List (String × Tree)) (k0 : String)
    (v0 : Tree) (rest : List (String × Tree))
    (hinc : includedTree c args.input = .ok d)
    (hv : NAME_VERSION ∈ d.map Prod.fst)
    (hta : targetAvailableOf d = (k0, v0) :: rest)
    (hchk : ¬(((k0, v0) :: rest).length > 1 ∧ optFalsy args.target = true))
    (hsplit : (pySplitDot k0).length ≠ 2) :
    processModel c args dr =
      .ok ⟨1, none, none, none, some (.malformedTarget k0)⟩ := by
  rw [processModel_to_target c args dr d hinc hv (by simp [hta])]
  refine processTarget_fatal c args dr ⟨d⟩ _ ?_
  show selectTarget (targetAvailableOf d) args.target = _
  rw [hta, selectTarget_cons, if_neg hchk, split_match_malformed k0 hsplit]

/-- Witness for the amended C2: the only available identifier `qemu` (from
key `target.qemu`) has no name component and compilation fails with the
malformed-target-name error without resolving anything. -/
theorem malformed_selected_target_rejected_witness :
    processModel (constCollab docMalformed) ⟨some "in.yaml", none, none⟩
        false =
      .ok ⟨1, none, none, none, some (.malformedTarget "qemu")⟩ :=
  malformed_selected_target_rejected (constCollab docMalformed)
    ⟨some "in.yaml", none, none⟩ false docMalformed "qemu" (.scalar "x") []
    rfl (by decide) rfl (by decide) (by decide)

theorem selectTarget_cons_ne_noTargets (k0 : String) (v0 : Tree)
    (rest : List (String × Tree)) (req : Option String) :
    selectTarget ((k0, v0) :: rest) req ≠ .fatal .noTargets := by
  rw [selectTarget_cons]
  by_cases hc : ((k0, v0) :: rest).length > 1 ∧ optFalsy req = true
  · rw [if_pos hc]
    simp
  · rw [if_neg hc]
    cases hsp : pySplitDot k0 with
    | nil => simp
    | cons a tl =>
      cases tl with
      | nil => simp
      | cons b tl2 =>
        cases tl2 with
        | nil => simp
        | cons e l => simp

theorem processTarget_ok_inv {Ctx : Type} (c : Collab Ctx) (args : Args)
    (dr : Bool) (doc : Omnifest) (res : ProcResult)
    (h : processTarget c args dr doc = .ok res) :
    (∃ f, selectTarget (targetAvailableOf doc.tree) args.target = .fatal f ∧
      res = ⟨1, none, none, none, some f⟩) ∨
    (∃ tr kind name sub,
      selectTarget (targetAvailableOf doc.tree) args.target =
        .select tr kind name ∧
      doc.tree.lookup (PREFIX_TARGET ++ kind ++ "." ++ name) = some sub ∧
      res.status = 0 ∧ res.selected = some tr ∧
      res.resolvedTree = some sub ∧ res.fatal = none) := by
  simp only [processTarget] at h
  split at h
  next f hsel =>
    left
    cases h
    exact ⟨f, hsel, rfl⟩
  next tr kind name hsel =>
    right
    split at h
    next => cases h
    next sub hlk =>
      split at h
      next => cases h
      next rt hres =>
        split at h <;> cases h <;>
          exact ⟨tr, kind, name, sub, hsel, hlk, rfl, rfl, rfl, rfl⟩

/-- Claim C4: whenever the document offers more than one target and none is
requested (a falsy request), compilation fails with the ambiguous-target
fatal and status 1; whenever exactly one target is available and none is
requested, that single target is selected implicitly and compilation
proceeds through resolution (and rendering unless dry run) with status 0. -/
theorem target_selection_determinism (Ctx : Type) (c : Collab Ctx) :
    (∀ args d dr, includedTree c args.input = .ok d →
      NAME_VERSION ∈ d.map Prod.fst →
      (targetAvailableOf d).length > 1 → optFalsy args.target = true →
      processModel c args dr = .ok ⟨1, none, none, none, some .ambiguous⟩) ∧
    (∀ args d dr k0 v0 kind name rt, includedTree c args.input = .ok d →
      NAME_VERSION ∈ d.map Prod.fst →
      targetAvailableOf d = [(k0, v0)] →
      optFalsy args.target = true →
      pySplitDot k0 = [kind, name] →
      d.lookup (PREFIX_TARGET ++ kind ++ "." ++ name) = some v0 →
      c.resolve ((dictGet c.contextRegistry kind c.commonSpec)
          (CommonContext.new (cwdFor args.input c.cwdProc)))
        ⟨pathOf args.input c.stdinPath, []⟩ v0 = .ok rt →
      processModel c args dr =
        .ok ⟨0,
          if dr then none
          else some ((dictGet c.targetRegistry kind c.commonTarget)
            ((dictGet c.contextRegistry kind c.commonSpec)
              (CommonContext.new (cwdFor args.input c.cwdProc))) rt),
          some k0, some v0, none⟩) := by
  constructor
  · intro args d dr hinc hv hlen hfals
    rcases hta : targetAvailableOf d with _ | ⟨⟨k0, v0⟩, rest⟩
    · rw [hta] at hlen
      simp at hlen
    · rw [hta] at hlen
      rw [processModel_to_target c args dr d hinc hv (by simp [hta])]
      refine processTarget_fatal c args dr ⟨d⟩ _ ?_
      show selectTarget (targetAvailableOf d) args.target = _
      rw [hta, selectTarget_cons, if_pos ⟨hlen, hfals⟩]
  · intro args d dr k0 v0 kind name rt hinc hv hta hfals hsp hlook hres
    rw [processModel_to_target c args dr d hinc hv (by simp [hta])]
    refine processTarget_select c args dr ⟨d⟩ k0 kind name v0 rt ?_ hlook hres
    show selectTarget (targetAvailableOf d) args.target = _
    rw [hta, selectTarget_cons, if_neg (by simp), hsp]

/-- Witness for C4 at concrete documents: two targets and no request is the
ambiguous fatal; one target and no request compiles it. -/
theorem target_selection_determinism_witness :
    processModel (constCollab docTwo) ⟨some "in.yaml", none, none⟩ false =
      .ok ⟨1, none, none, none, some .ambiguous⟩ ∧
    processModel (constCollab docSingle) ⟨some "in.yaml", none, none⟩ true =
      .ok ⟨0, none, some "qemu.x86_64", some (Tree.map []), none⟩ := by
  constructor
  · exact (target_selection_determinism Unit (constCollab docTwo)).1
      ⟨some "in.yaml", none, none⟩ docTwo false rfl (by decide) (by decide)
      rfl
  · exact (target_selection_determinism Unit (constCollab docSingle)).2
      ⟨some "in.yaml", none, none⟩ docSingle true "qemu.x86_64"
      (Tree.map []) "qemu" "x86_64" (Tree.map []) rfl (by decide) rfl rfl
      rfl rfl rfl

/-- Claim C9: once the multiple-targets check has passed (fewer than two
available targets or a non-falsy request), the target identifier actually
resolved is always the first available key in document insertion order,
regardless of which identifier was requested: the request is overwritten
before the membership check (so the unknown-target fatal can never occur)
and before the split (so a malformed-target fatal can only name the first
available key). -/
theorem requested_target_overwritten {Ctx : Type} (c : Collab Ctx)
    (args : Args) (d : List (String × Tree)) (k0 : String) (v0 : Tree)
    (rest : List (String × Tree)) (dr : Bool)
    (hinc : includedTree c args.input = .ok d)
    (hv : NAME_VERSION ∈ d.map Prod.fst)
    (hta : targetAvailableOf d = (k0, v0) :: rest)
    (hchk : ¬(((k0, v0) :: rest).length > 1 ∧ optFalsy args.target = true)) :
    ∀ res, processModel c args dr = .ok res →
      (res.status = 0 → res.selected = some k0) ∧
      (∀ t, res.fatal ≠ some (.unknownTarget t)) ∧
      (∀ t, res.fatal = some (.malformedTarget t) → t = k0) := by
  intro res h
  rw [processModel_to_target c args dr d hinc hv (by simp [hta])] at h
  have hsel : selectTarget (targetAvailableOf (⟨d⟩ : Omnifest).tree)
      args.target =
      (match pySplitDot k0 with
        | [kind, name] => Selection.select k0 kind name
        | _ => Selection.fatal (.malformedTarget k0)) := by
    show selectTarget (targetAvailableOf d) args.target = _
    rw [hta, selectTarget_cons, if_neg hchk]
  rcases processTarget_ok_inv c args dr ⟨d⟩ res h with
    ⟨f, hself, hres⟩ | ⟨tr, kind, name, sub, hself, _, hst, hselr, _, hf⟩
  · rw [hself] at hsel
    rcases hsp : pySplitDot k0 with _ | ⟨a, _ | ⟨b, _ | ⟨e, l⟩⟩⟩ <;>
      rw [hsp] at hsel
    · cases hsel
      subst hres
      exact ⟨fun hq => absurd hq (by simp), by simp, by simp⟩
    · cases hsel
      subst hres
      exact ⟨fun hq => absurd hq (by simp), by simp, by simp⟩
    · cases hsel
    · cases hsel
      subst hres
      exact ⟨fun hq => absurd hq (by simp), by simp, by simp⟩
  · rw [hself] at hsel
    rcases hsp : pySplitDot k0 with _ | ⟨a, _ | ⟨b, _ | ⟨e, l⟩⟩⟩ <;>
      rw [hsp] at hsel <;> cases hsel
    exact ⟨fun _ => hselr, by rw [hf]; simp, by rw [hf]; simp⟩

/-- Witness for C9: with targets `qemu.x86_64` and `qemu.aarch64` and the
second explicitly requested, the identifier actually compiled is the first,
`qemu.x86_64`. -/
theorem requested_target_overwritten_witness :
    (processModel (constCollab docTwo)
        ⟨some "in.yaml", none, some "qemu.aarch64"⟩ false).map
      (fun r => r.selected) = .ok (some "qemu.x86_64") := by
  have h := requested_target_overwritten (constCollab docTwo)
      ⟨some "in.yaml", none, some "qemu.aarch64"⟩ docTwo "qemu.x86_64"
      (Tree.scalar "x") [("qemu.aarch64", Tree.scalar "y")] false rfl
      (by decide) rfl (by decide)
      ⟨0, some "rendered", some "qemu.x86_64", some (Tree.scalar "x"), none⟩
      rfl
  have e0 : (processModel (constCollab docTwo)
        ⟨some "in.yaml", none, some "qemu.aarch64"⟩ false).map
      (fun r => r.selected) =
      .ok ((⟨0, some "rendered", some "qemu.x86_64",
        some (Tree.scalar "x"), none⟩ : ProcResult).selected) := rfl
  rw [e0, h.1 rfl]

/-- Claim C10: every successfully constructed `Omnifest` contains the
version marker key and at least one target key, and consequently the
no-targets fatal of `_process`, tested on the tree of an already
constructed `Omnifest`, can never fire. -/
theorem omnifest_invariant_no_targets_unreachable (Ctx : Type)
    (c : Collab Ctx) :
    (∀ d o, Omnifest.make d = .ok o →
      NAME_VERSION ∈ o.tree.map Prod.fst ∧ targetAvailableOf o.tree ≠ []) ∧
    (∀ args dr res, processModel c args dr = .ok res →
      res.fatal ≠ some .noTargets) := by
  constructor
  · intro d o h
    obtain ⟨ho, hv, ht⟩ := Omnifest.make_ok_inv d o h
    rw [Omnifest.tree, ho]
    exact ⟨hv, ht⟩
  · intro args dr res h
    unfold processModel at h
    split at h
    next => cases h
    next d hinc =>
      split at h
      next => cases h
      next doc hmk =>
        obtain ⟨ho, _, ht⟩ := Omnifest.make_ok_inv d doc hmk
        rcases processTarget_ok_inv c args dr doc res h with
          ⟨f, hsel, hres⟩ | ⟨tr, kind, name, sub, _, _, _, _, _, hf⟩
        · subst hres
          simp only [ProcResult.fatal]
          intro hq
          cases hq
          rcases hta : targetAvailableOf doc.tree with _ | ⟨⟨k0, v0⟩, rest⟩
          · rw [Omnifest.tree, ho] at hta
            exact ht hta
          · rw [hta] at hsel
            exact selectTarget_cons_ne_noTargets k0 v0 rest args.target hsel
        · rw [hf]
          simp

/-- Witness for C10: the invariant and the unreachability at a concrete
document and run. -/
theorem omnifest_invariant_no_targets_unreachable_witness :
    (NAME_VERSION ∈ (Omnifest.mk docSingle).tree.map Prod.fst ∧
      targetAvailableOf (Omnifest.mk docSingle).tree ≠ []) ∧
    (⟨0, none, some "qemu.x86_64", some (Tree.map []), none⟩ :
      ProcResult).fatal ≠ some .noTargets := by
  constructor
  · exact (omnifest_invariant_no_targets_unreachable Unit
      (constCollab docSingle)).1 docSingle ⟨docSingle⟩ rfl
  · exact (omnifest_invariant_no_targets_unreachable Unit
      (constCollab docSingle)).2 ⟨some "in.yaml", none, none⟩ true
      ⟨0, none, some "qemu.x86_64", some (Tree.map []), none⟩ rfl

/-- Claim C5: validate mode and compile mode run the identical pipeline —
for every collaborator assignment and every argument vector they agree on
the raised exception or on the status, the selected target, the subtree
handed to directive resolution and the logged fatal; validate mode never
writes anything, while compile mode, on success, additionally writes the
rendered tree. -/
theorem validate_compile_parity (Ctx : Type) (c : Collab Ctx)
    (args : Args) :
    (validateCmd c args).map
        (fun r => (r.status, r.selected, r.resolvedTree, r.fatal)) =
      (compileCmd c args).map
        (fun r => (r.status, r.selected, r.resolvedTree, r.fatal)) ∧
    (∀ r, validateCmd c args = .ok r → r.written = none) ∧
    (∀ r, compileCmd c args = .ok r → r.status = 0 →
      r.written.isSome = true) := by
  unfold validateCmd compileCmd processModel
  cases hinc : includedTree c args.input with
  | error e => simp
  | ok d =>
    dsimp only
    cases hmk : Omnifest.make d with
    | error e => simp
    | ok doc =>
      dsimp only
      simp only [processTarget]
      cases hsel : selectTarget (targetAvailableOf doc.tree) args.target with
      | fatal f => simp
      | select tr kind name =>
        dsimp only
        cases hlk : doc.tree.lookup (PREFIX_TARGET ++ kind ++ "." ++ name) with
        | none => simp
        | some sub =>
          dsimp only
          cases hres : c.resolve
              ((dictGet c.contextRegistry kind c.commonSpec)
                (CommonContext.new (cwdFor args.input c.cwdProc)))
              ⟨pathOf args.input c.stdinPath,
                (CommonContext.new (cwdFor args.input c.cwdProc)).defines⟩
              sub with
          | error e => simp
          | ok rt =>
            refine ⟨rfl, ?_, ?_⟩ <;> simp

/-- Witness for C5 at a concrete input: the projections agree and validate
mode wrote nothing. -/
theorem validate_compile_parity_witness :
    (validateCmd (constCollab docSingle) ⟨some "in.yaml", none, none⟩).map
        (fun r => (r.status, r.selected, r.resolvedTree, r.fatal)) =
      (compileCmd (constCollab docSingle) ⟨some "in.yaml", none, none⟩).map
        (fun r => (r.status, r.selected, r.resolvedTree, r.fatal)) ∧
    (⟨0, none, some "qemu.x86_64", some (Tree.map []), none⟩ :
      ProcResult).written = none := by
  constructor
  · exact (validate_compile_parity Unit (constCollab docSingle)
      ⟨some "in.yaml", none, none⟩).1
  · exact (validate_compile_parity Unit (constCollab docSingle)
      ⟨some "in.yaml", none, none⟩).2.1
      ⟨0, none, some "qemu.x86_64", some (Tree.map []), none⟩ rfl

/-- Claim C7: the working directory handed to the include resolver — the
base directory against which relative include paths are resolved — is the
input file's parent directory when the top-level document is read from a
named file, and the process's current working directory when it is read
from standard input; observed by an include resolver that reports back the
directory it was given. -/
theorem include_base_directory (Ctx : Type) (cs : CommonContext → Ctx)
    (reg : List (String × (CommonContext → Ctx)))
    (res : Ctx → PState → Tree → Except PyExc Tree)
    (ct : Ctx → Tree → String)
    (treg : List (String × (Ctx → Tree → String)))
    (cwdP stdinP : String) (out tgt : Option String) (dr : Bool) :
    (∀ p, processModel
        (⟨cwdP, stdinP, fun ctx _ _ => .error (.raised ctx.cwd), cs, reg,
          res, ct, treg⟩ : Collab Ctx)
        ⟨some p, out, tgt⟩ dr = .error (.raised (pathParent p))) ∧
    processModel
        (⟨cwdP, stdinP, fun ctx _ _ => .error (.raised ctx.cwd), cs, reg,
          res, ct, treg⟩ : Collab Ctx)
        ⟨none, out, tgt⟩ dr = .error (.raised cwdP) :=
  ⟨fun _ => rfl, rfl⟩

/-- Claim C8: the registry lookup `registry.get(kind, default)` returns the
default when no specialization is registered for the kind and the
registered specialization when there is one; with both registries empty for
the selected kind, compilation still completes successfully, resolving with
the common context and rendering with the common target. -/
theorem registry_fallback (Ctx : Type) (c : Collab Ctx) :
    (∀ (α : Type) (reg : List (String × α)) (k : String) (d : α),
      reg.lookup k = none → dictGet reg k d = d) ∧
    (∀ (α : Type) (reg : List (String × α)) (k : String) (d v : α),
      reg.lookup k = some v → dictGet reg k d = v) ∧
    (∀ args d dr k0 v0 kind name rt, includedTree c args.input = .ok d →
      NAME_VERSION ∈ d.map Prod.fst →
      targetAvailableOf d = [(k0, v0)] →
      pySplitDot k0 = [kind, name] →
      c.contextRegistry.lookup kind = none →
      c.targetRegistry.lookup kind = none →
      d.lookup (PREFIX_TARGET ++ kind ++ "." ++ name) = some v0 →
      c.resolve (c.commonSpec (CommonContext.new (cwdFor args.input c.cwdProc)))
        ⟨pathOf args.input c.stdinPath, []⟩ v0 = .ok rt →
      processModel c args dr =
        .ok ⟨0,
          if dr then none
          else some (c.commonTarget
            (c.commonSpec (CommonContext.new (cwdFor args.input c.cwdProc)))
            rt),
          some k0, some v0, none⟩) := by
  refine ⟨fun α reg k d h => ?_, fun α reg k d v h => ?_, ?_⟩
  · simp [dictGet, h]
  · simp [dictGet, h]
  · intro args d dr k0 v0 kind name rt hinc hv hta hsp hcr htr hlook hres
    rw [processModel_to_target c args dr d hinc hv (by simp [hta])]
    have e1 : (dictGet c.contextRegistry kind c.commonSpec) = c.commonSpec := by
      simp [dictGet, hcr]
    have e2 : (dictGet c.targetRegistry kind c.commonTarget) =
        c.commonTarget := by
      simp [dictGet, htr]
    refine Eq.trans
      (processTarget_select c args dr ⟨d⟩ k0 kind name v0 rt ?_ hlook ?_) ?_
    · show selectTarget (targetAvailableOf d) args.target = _
      rw [hta, selectTarget_cons, if_neg (by simp), hsp]
    · rw [e1]
      exact hres
    · rw [e1, e2]

/-- Witness for C8: both registry lookups at concrete tables, and a full
compilation with empty registries succeeding through the common behavior. -/
theorem registry_fallback_witness :
    dictGet ([] : List (String × Nat)) "qemu" 7 = 7 ∧
    dictGet [("qemu", 3)] "qemu" 7 = 3 ∧
    processModel (constCollab docSingle) ⟨some "in.yaml", none, none⟩
        false =
      .ok ⟨0, some "rendered", some "qemu.x86_64", some (Tree.map []),
        none⟩ := by
  refine ⟨(registry_fallback Unit (constCollab docSingle)).1 Nat [] "qemu" 7
      rfl,
    (registry_fallback Unit (constCollab docSingle)).2.1 Nat [("qemu", 3)]
      "qemu" 7 3 rfl, ?_⟩
  exact (registry_fallback Unit (constCollab docSingle)).2.2
    ⟨some "in.yaml", none, none⟩ docSingle false "qemu.x86_64"
    (Tree.map []) "qemu" "x86_64" (Tree.map []) rfl (by decide) rfl rfl rfl
    rfl rfl rfl

/-!
Lemmas on the heap model of the defensive copy.
-/

theorem readMany_congr (rd1 rd2 : Addr → Option Tree) (es : List Addr)
    (h : ∀ a ∈ es, rd1 a = rd2 a) : readMany rd1 es = readMany rd2 es := by
  induction es with
  | nil => rfl
  | cons a as ih =>
    simp only [readMany]
    rw [h a (by simp), ih (fun b hb => h b (by simp [hb]))]

theorem readManyKV_congr (rd1 rd2 : Addr → Option Tree)
    (es : List (String × Addr)) (h : ∀ kv ∈ es, rd1 kv.2 = rd2 kv.2) :
    readManyKV rd1 es = readManyKV rd2 es := by
  induction es with
  | nil => rfl
  | cons kv as ih =>
    rcases kv with ⟨k, a⟩
    simp only [readManyKV]
    rw [h (k, a) (by simp), ih (fun b hb => h b (by simp [hb]))]

theorem readV_agree (g : Nat) (σ σ2 : Store) (hwf : WFStore σ)
    (hag : ∀ j, j < σ.length → σ2[j]? = σ[j]?) :
    ∀ a, a < σ.length → readV g σ2 a = readV g σ a := by
  induction g with
  | zero => intro a _; rfl
  | succ g ih =>
    intro a ha
    simp only [readV]
    rw [hag a ha]
    cases hget : σ[a]? with
    | none => rfl
    | some node =>
      have hmem : node ∈ σ := List.getElem?_mem hget
      have hch : ∀ b ∈ node.addrs, b < σ.length :=
        fun b hb => hwf node hmem b hb
      cases node with
      | scalar s => rfl
      | list es =>
        dsimp only
        rw [readMany_congr (readV g σ2) (readV g σ) es
          (fun b hb => ih b (hch b hb))]
      | dict es =>
        dsimp only
        rw [readManyKV_congr (readV g σ2) (readV g σ) es
          (fun kv hkv => ih kv.2 (hch kv.2 (by
            simp only [PyNode.addrs]
            exact List.mem_map_of_mem Prod.snd hkv)))]

theorem readV_append (g : Nat) (σ t : Store) (a : Addr) (hwf : WFStore σ)
    (ha : a < σ.length) : readV g (σ ++ t) a = readV g σ a :=
  readV_agree g σ (σ ++ t) hwf
    (fun _ hj => List.getElem?_append_left hj) a ha

theorem copyMany_spec (fuel : Nat) (cp : Store → Addr → Option (Store × Addr))
    (hcp : ∀ σ a σ2 a2, WFStore σ → cp σ a = some (σ2, a2) →
      CopySpec fuel σ a σ2 a2) :
    ∀ (es : List Addr) (σ σ2 : Store) (es2 : List Addr), WFStore σ →
      (∀ b ∈ es, b < σ.length) → copyMany cp σ es = some (σ2, es2) →
      CopyManySpec fuel σ es σ2 es2 := by
  intro es
  induction es with
  | nil =>
    intro σ σ2 es2 hwf _ h
    simp only [copyMany] at h
    cases h
    refine ⟨⟨[], by simp⟩, by simp, hwf, ?_, rfl⟩
    intro j n hj hget
    rw [List.getElem?_eq_none hj] at hget
    cases hget
  | cons a as ih =>
    intro σ σ2 es2 hwf hbound h
    simp only [copyMany] at h
    cases h1 : cp σ a with
    | none => rw [h1] at h; cases h
    | some p =>
      rcases p with ⟨σ1, a1⟩
      rw [h1] at h
      dsimp only at h
      cases h2 : copyMany cp σ1 as with
      | none => rw [h2] at h; cases h
      | some q =>
        rcases q with ⟨σ3, as2⟩
        rw [h2] at h
        dsimp only at h
        cases h
        obtain ⟨⟨t1, ht1⟩, ha1lo, ha1hi, hwf1, hhf1, hrd1⟩ :=
          hcp σ a σ1 a1 hwf h1
        have hlen1 : σ.length ≤ σ1.length := by rw [ht1]; simp
        have hbound1 : ∀ b ∈ as, b < σ1.length :=
          fun b hb => lt_of_lt_of_le (hbound b (by simp [hb])) hlen1
        obtain ⟨⟨t2, ht2⟩, hbnds, hwf2, hhf2, hrd2⟩ :=
          ih σ1 σ2 as2 hwf1 hbound1 h2
        have hlen2 : σ1.length ≤ σ2.length := by rw [ht2]; simp
        refine ⟨⟨t1 ++ t2, by rw [ht2, ht1, List.append_assoc]⟩, ?_, hwf2,
          ?_, ?_⟩
        · intro b hb
          rcases List.mem_cons.mp hb with rfl | hb2
          · exact ⟨ha1lo, lt_of_lt_of_le ha1hi hlen2⟩
          · rcases hbnds b hb2 with ⟨hlo, hhi⟩
            exact ⟨le_trans hlen1 hlo, hhi⟩
        · intro j n hj hget
          by_cases hj1 : j < σ1.length
          · have e : σ2[j]? = σ1[j]? := by
              rw [ht2]
              exact List.getElem?_append_left hj1
            rw [e] at hget
            exact hhf1 j n hj hget
          · exact fun b hb =>
              le_trans hlen1 (hhf2 j n (le_of_not_lt hj1) hget b hb)
        · simp only [readMany]
          have e1 : readV fuel σ2 a1 = readV fuel σ a := by
            have e0 : readV fuel σ2 a1 = readV fuel σ1 a1 := by
              rw [ht2]
              exact readV_append fuel σ1 t2 a1 hwf1 ha1hi
            rw [e0, hrd1]
          have e2 : readMany (readV fuel σ2) as2 =
              readMany (readV fuel σ) as := by
            rw [hrd2]
            exact readMany_congr _ _ as (fun b hb => by
              rw [ht1]
              exact readV_append fuel σ t1 b hwf (hbound b (by simp [hb])))
          rw [e1, e2]

theorem copyManyKV_spec (fuel : Nat)
    (cp : Store → Addr → Option (Store × Addr))
    (hcp : ∀ σ a σ2 a2, WFStore σ → cp σ a = some (σ2, a2) →
      CopySpec fuel σ a σ2 a2) :
    ∀ (es : List (String × Addr)) (σ σ2 : Store)
      (es2 : List (String × Addr)), WFStore σ →
      (∀ b ∈ es.map Prod.snd, b < σ.length) →
      copyManyKV cp σ es = some (σ2, es2) →
      CopyManyKVSpec fuel σ es σ2 es2 := by
  intro es
  induction es with
  | nil =>
    intro σ σ2 es2 hwf _ h
    simp only [copyManyKV] at h
    cases h
    refine ⟨⟨[], by simp⟩, by simp, hwf, ?_, rfl⟩
    intro j n hj hget
    rw [List.getElem?_eq_none hj] at hget
    cases hget
  | cons kv as ih =>
    rcases kv with ⟨k, a⟩
    intro σ σ2 es2 hwf hbound h
    simp only [copyManyKV] at h
    cases h1 : cp σ a with
    | none => rw [h1] at h; cases h
    | some p =>
      rcases p with ⟨σ1, a1⟩
      rw [h1] at h
      dsimp only at h
      cases h2 : copyManyKV cp σ1 as with
      | none => rw [h2] at h; cases h
      | some q =>
        rcases q with ⟨σ3, as2⟩
        rw [h2] at h
        dsimp only at h
        cases h
        obtain ⟨⟨t1, ht1⟩, ha1lo, ha1hi, hwf1, hhf1, hrd1⟩ :=
          hcp σ a σ1 a1 hwf h1
        have hlen1 : σ.length ≤ σ1.length := by rw [ht1]; simp
        have hbound1 : ∀ b ∈ as.map Prod.snd, b < σ1.length :=
          fun b hb => lt_of_lt_of_le (hbound b (by simp [hb])) hlen1
        obtain ⟨⟨t2, ht2⟩, hbnds, hwf2, hhf2, hrd2⟩ :=
          ih σ1 σ2 as2 hwf1 hbound1 h2
        have hlen2 : σ1.length ≤ σ2.length := by rw [ht2]; simp
        refine ⟨⟨t1 ++ t2, by rw [ht2, ht1, List.append_assoc]⟩, ?_, hwf2,
          ?_, ?_⟩
        · intro b hb
          simp only [List.map_cons, List.mem_cons] at hb
          rcases hb with rfl | hb2
          · exact ⟨ha1lo, lt_of_lt_of_le ha1hi hlen2⟩
          · rcases hbnds b hb2 with ⟨hlo, hhi⟩
            exact ⟨le_trans hlen1 hlo, hhi⟩
        · intro j n hj hget
          by_cases hj1 : j < σ1.length
          · have e : σ2[j]? = σ1[j]? := by
              rw [ht2]
              exact List.getElem?_append_left hj1
            rw [e] at hget
            exact hhf1 j n hj hget
          · exact fun b hb =>
              le_trans hlen1 (hhf2 j n (le_of_not_lt hj1) hget b hb)
        · simp only [readManyKV]
          have e1 : readV fuel σ2 a1 = readV fuel σ a := by
            have e0 : readV fuel σ2 a1 = readV fuel σ1 a1 := by
              rw [ht2]
              exact readV_append fuel σ1 t2 a1 hwf1 ha1hi
            rw [e0, hrd1]
          have e2 : readManyKV (readV fuel σ2) as2 =
              readManyKV (readV fuel σ) as := by
            rw [hrd2]
            exact readManyKV_congr _ _ as (fun b hb => by
              rw [ht1]
              refine readV_append fuel σ t1 b.2 hwf (hbound b.2 ?_)
              exact List.mem_map_of_mem Prod.snd (List.mem_cons_of_mem (k, a) hb))
          rw [e1, e2]

theorem deepcopy_spec : ∀ (fuel : Nat) (σ : Store) (a : Addr) (σ2 : Store)
    (a2 : Addr), WFStore σ → deepcopy fuel σ a = some (σ2, a2) →
    CopySpec fuel σ a σ2 a2 := by
  intro fuel
  induction fuel with
  | zero =>
    intro σ a σ2 a2 _ h
    cases h
  | succ fuel ih =>
    intro σ a σ2 a2 hwf h
    simp only [deepcopy] at h
    cases hget : σ[a]? with
    | none => rw [hget] at h; cases h
    | some node =>
      rw [hget] at h
      have hmem : node ∈ σ := List.getElem?_mem hget
      cases node with
      | scalar s =>
        dsimp only at h
        cases h
        refine ⟨⟨[.scalar s], rfl⟩, le_refl _, by simp, ?_, ?_, ?_⟩
        · intro n hn b hb
          rcases List.mem_append.mp hn with hn1 | hn2
          · exact lt_of_lt_of_le (hwf n hn1 b hb) (by simp)
          · rw [List.mem_singleton.mp hn2] at hb
            cases hb
        · intro j n hj hget2
          by_cases hje : j = σ.length
          · subst hje
            rw [List.getElem?_concat_length] at hget2
            cases hget2
            intro b hb
            cases hb
          · have e : (σ ++ [PyNode.scalar s])[j]? = none := by
              refine List.getElem?_eq_none ?_
              simp only [List.length_append, List.length_cons,
                List.length_nil]
              omega
            rw [e] at hget2
            cases hget2
        · simp only [readV]
          rw [List.getElem?_concat_length, hget]
      | list es =>
        dsimp only at h
        cases hcm : copyMany (deepcopy fuel) σ es with
        | none => rw [hcm] at h; cases h
        | some q =>
          rcases q with ⟨σ1, es2⟩
          rw [hcm] at h
          dsimp only at h
          cases h
          have hbound : ∀ b ∈ es, b < σ.length :=
            fun b hb => hwf _ hmem b hb
          obtain ⟨⟨t1, ht1⟩, hbnds, hwf1, hhf1, hrd⟩ :=
            copyMany_spec fuel (deepcopy fuel) ih es σ σ1 es2 hwf hbound hcm
          have hlen1 : σ.length ≤ σ1.length := by rw [ht1]; simp
          refine ⟨⟨t1 ++ [.list es2], by rw [ht1, List.append_assoc]⟩,
            hlen1, by simp, ?_, ?_, ?_⟩
          · intro n hn b hb
            rcases List.mem_append.mp hn with hn1 | hn2
            · exact lt_of_lt_of_le (hwf1 n hn1 b hb) (by simp)
            · rw [List.mem_singleton.mp hn2] at hb
              exact lt_of_lt_of_le (hbnds b hb).2 (by simp)
          · intro j n hj hget2
            by_cases hj1 : j < σ1.length
            · have e : (σ1 ++ [PyNode.list es2])[j]? = σ1[j]? :=
                List.getElem?_append_left hj1
              rw [e] at hget2
              exact hhf1 j n hj hget2
            · by_cases hje : j = σ1.length
              · subst hje
                rw [List.getElem?_concat_length] at hget2
                cases hget2
                exact fun b hb => (hbnds b hb).1
              · have e : (σ1 ++ [PyNode.list es2])[j]? = none := by
                  refine List.getElem?_eq_none ?_
                  simp only [List.length_append, List.length_cons,
                    List.length_nil]
                  omega
                rw [e] at hget2
                cases hget2
          · simp only [readV]
            rw [List.getElem?_concat_length, hget]
            dsimp only
            have e1 : readMany (readV fuel (σ1 ++ [PyNode.list es2])) es2 =
                readMany (readV fuel σ1) es2 :=
              readMany_congr _ _ es2 (fun b hb =>
                readV_append fuel σ1 [PyNode.list es2] b hwf1 (hbnds b hb).2)
            rw [e1, hrd]
      | dict es =>
        dsimp only at h
        cases hcm : copyManyKV (deepcopy fuel) σ es with
        | none => rw [hcm] at h; cases h
        | some q =>
          rcases q with ⟨σ1, es2⟩
          rw [hcm] at h
          dsimp only at h
          cases h
          have hbound : ∀ b ∈ es.map Prod.snd, b < σ.length :=
            fun b hb => hwf _ hmem b hb
          obtain ⟨⟨t1, ht1⟩, hbnds, hwf1, hhf1, hrd⟩ :=
            copyManyKV_spec fuel (deepcopy fuel) ih es σ σ1 es2 hwf hbound
              hcm
          have hlen1 : σ.length ≤ σ1.length := by rw [ht1]; simp
          refine ⟨⟨t1 ++ [.dict es2], by rw [ht1, List.append_assoc]⟩,
            hlen1, by simp, ?_, ?_, ?_⟩
          · intro n hn b hb
            rcases List.mem_append.mp hn with hn1 | hn2
            · exact lt_of_lt_of_le (hwf1 n hn1 b hb) (by simp)
            · rw [List.mem_singleton.mp hn2] at hb
              exact lt_of_lt_of_le (hbnds b hb).2 (by simp)
          · intro j n hj hget2
            by_cases hj1 : j < σ1.length
            · have e : (σ1 ++ [PyNode.dict es2])[j]? = σ1[j]? :=
                List.getElem?_append_left hj1
              rw [e] at hget2
              exact hhf1 j n hj hget2
            · by_cases hje : j = σ1.length
              · subst hje
                rw [List.getElem?_concat_length] at hget2
                cases hget2
                exact fun b hb => (hbnds b hb).1
              · have e : (σ1 ++ [PyNode.dict es2])[j]? = none := by
                  refine List.getElem?_eq_none ?_
                  simp only [List.length_append, List.length_cons,
                    List.length_nil]
                  omega
                rw [e] at hget2
                cases hget2
          · simp only [readV]
            rw [List.getElem?_concat_length, hget]
            dsimp only
            have e1 : readManyKV (readV fuel (σ1 ++ [PyNode.dict es2])) es2 =
                readManyKV (readV fuel σ1) es2 :=
              readManyKV_congr _ _ es2 (fun kv hkv =>
                readV_append fuel σ1 [PyNode.dict es2] kv.2 hwf1
                  (hbnds kv.2 (List.mem_map_of_mem Prod.snd hkv)).2)
            rw [e1, hrd]

theorem deepcopy_some_lt (fuel : Nat) (σ : Store) (a : Addr)
    (p : Store × Addr) (h : deepcopy fuel σ a = some p) : a < σ.length := by
  cases fuel with
  | zero => cases h
  | succ fuel =>
    simp only [deepcopy] at h
    cases hget : σ[a]? with
    | none => rw [hget] at h; cases h
    | some node =>
      rcases List.getElem?_eq_some.mp hget with ⟨hl, _⟩
      exact hl

theorem reaches_ge (σ σ2 : Store) (a2 : Addr) (hhf : HiFresh σ σ2)
    (ha : σ.length ≤ a2) : ∀ b, Reaches σ2 a2 b → σ.length ≤ b := by
  intro b hr
  induction hr with
  | refl => exact ha
  | step hb hn hc ih => exact hhf _ _ ih hn _ hc

theorem readV_set_ge (g : Nat) (σ σ2 : Store) (a : Addr) (hwf : WFStore σ)
    (hpre : ∀ j, j < σ.length → σ2[j]? = σ[j]?) (ha : a < σ.length)
    (i : Addr) (hi : σ.length ≤ i) (n : PyNode) :
    readV g (σ2.set i n) a = readV g σ a :=
  readV_agree g σ (σ2.set i n) hwf
    (fun j hj => by
      rw [List.getElem?_set_ne (by omega), hpre j hj]) a ha

/-- Claim C6: reading the tree of an `Omnifest` through the heap-level
defensive deep copy yields a value structurally equal to the underlying
data; mutating any cell of the returned tree (any cell reachable from its
root) leaves the value of the underlying data unchanged; and a second read
returns a tree structurally equal to the first. -/
theorem omnifest_tree_defensive_copy (fuel : Nat) (σ σ1 σ2 : Store)
    (a a1 a2 : Addr) (hwf : WFStore σ)
    (h1 : Omnifest.treeH fuel σ a = some (σ1, a1))
    (h2 : Omnifest.treeH fuel σ1 a = some (σ2, a2)) :
    readV fuel σ1 a1 = readV fuel σ a ∧
    (∀ b, Reaches σ1 a1 b → ∀ n g, readV g (σ1.set b n) a = readV g σ1 a) ∧
    readV fuel σ2 a2 = readV fuel σ1 a1 := by
  obtain ⟨⟨t1, ht1⟩, ha1lo, ha1hi, hwf1, hhf1, hrd1⟩ :=
    deepcopy_spec fuel σ a σ1 a1 hwf h1
  have halt : a < σ.length := deepcopy_some_lt fuel σ a (σ1, a1) h1
  obtain ⟨⟨t2, ht2⟩, _, _, _, _, hrd2⟩ := deepcopy_spec fuel σ1 a σ2 a2 hwf1 h2
  have hpre1 : ∀ j, j < σ.length → σ1[j]? = σ[j]? := fun j hj => by
    rw [ht1]
    exact List.getElem?_append_left hj
  refine ⟨hrd1, ?_, ?_⟩
  · intro b hb n g
    have hble : σ.length ≤ b := reaches_ge σ σ1 a1 hhf1 ha1lo b hb
    rw [readV_set_ge g σ σ1 a hwf hpre1 halt b hble n,
      readV_agree g σ σ1 hwf hpre1 a halt]
  · rw [hrd2, readV_agree fuel σ σ1 hwf hpre1 a halt, hrd1]

/-- Witness for C6 at a concrete heap: copying the dict at cell 1 of
`storeEx` gives a tree reading back to the same value. -/
theorem omnifest_tree_defensive_copy_witness :
    readV 5 storeEx1 3 = readV 5 storeEx 1 :=
  (omnifest_tree_defensive_copy 5 storeEx storeEx1 storeEx2 1 3 5
    (by unfold WFStore; decide) rfl rfl).1

end Otk
